import Mathlib

/-!
Shallow embedding of the `kvdb` crate (`src/kvdb/src/lib.rs`): the packed
transaction encoder (`DBTransaction` with its `ops` byte buffer and `index`
descriptor list), the zero-copy operation iterator (`DataOpIterator`), and the
`KeyValueDB` trait's default `write` method.

Bytes are modelled as `Nat` (keys and values are opaque byte sequences; no
arithmetic is ever performed on them), `u32` column ids as `Nat`, and `usize`
lengths as `Nat` (buffer lengths cannot overflow `usize` in any execution that
has allocated the buffer, and the source performs no wrapping arithmetic).
Rust slicing `ops[a..b]`, which panics when the range is out of bounds, is
modelled by `slice`, returning `none` exactly when Rust would panic.
-/

namespace Kvdb

/-- `pub const PREFIX_LEN: usize = 12;` (line 26). -/
def PREFIX_LEN : Nat := 12

/-- `enum DBOpIndex` (lines 33-37): one descriptor per logical operation. -/
inductive DBOpIndex where
  | Insert (col : Nat) (key_len : Nat) (value_len : Nat)
  | Delete (col : Nat) (key_len : Nat)
deriving DecidableEq, Repr

/-- `struct DBTransaction` (lines 39-43): packed byte buffer plus descriptor
list. -/
structure DBTransaction where
  ops : List Nat
  index : List DBOpIndex
deriving DecidableEq, Repr

/-- `DBTransaction::with_capacity` (lines 51-56): the capacity argument only
pre-reserves allocation (`cap << 6` bytes and `cap` descriptors); the
constructed transaction's observable content is empty, so the model takes the
capacity and ignores it. -/
def DBTransaction.with_capacity (_cap : Nat) : DBTransaction :=
  { ops := [], index := [] }

/-- `DBTransaction::new` (lines 46-48): `Self::with_capacity(256)`. -/
def DBTransaction.new : DBTransaction :=
  DBTransaction.with_capacity 256

/-- `DBTransaction::put` (lines 59-63): append key bytes, then value bytes, to
`ops`, and push an `Insert` descriptor. -/
def DBTransaction.put (t : DBTransaction) (col : Nat) (key value : List Nat) :
    DBTransaction :=
  { ops := t.ops ++ key ++ value,
    index := t.index ++ [DBOpIndex.Insert col key.length value.length] }

/-- `DBTransaction::put_vec` (lines 66-68): `self.put(col, key, &value[..])`. -/
def DBTransaction.put_vec (t : DBTransaction) (col : Nat) (key value : List Nat) :
    DBTransaction :=
  t.put col key value

/-- `DBTransaction::delete` (lines 71-74): append key bytes to `ops`, push a
`Delete` descriptor. -/
def DBTransaction.delete (t : DBTransaction) (col : Nat) (key : List Nat) :
    DBTransaction :=
  { ops := t.ops ++ key,
    index := t.index ++ [DBOpIndex.Delete col key.length] }

/-- `enum DataOp` (lines 81-91): a typed operation view. The Rust view borrows
slices from the buffer; the model carries the bytes of those slices. -/
inductive DataOp where
  | Insert (col : Nat) (key val : List Nat)
  | Delete (col : Nat) (key : List Nat)
deriving DecidableEq, Repr

/-- `DataOp::col` (lines 93-100). -/
def DataOp.col : DataOp → Nat
  | DataOp.Insert col _ _ => col
  | DataOp.Delete col _ => col

/-- `struct DataOpIterator` (lines 102-106), minus the transaction reference,
which the model passes explicitly to `next`. `pos` is the byte cursor into
`ops`, `index_pos` the descriptor cursor. -/
structure DataOpIterator where
  pos : Nat
  index_pos : Nat
deriving DecidableEq, Repr

/-- `DBTransaction::iter` (lines 76-78): a fresh iterator with both cursors at
zero. -/
def DBTransaction.iter (_t : DBTransaction) : DataOpIterator :=
  { pos := 0, index_pos := 0 }

/-- Rust range slicing `l[a..b]`: `some` of the sub-list when `a ≤ b ≤ l.len()`,
`none` (the panic case) otherwise. -/
def slice (l : List Nat) (a b : Nat) : Option (List Nat) :=
  if a ≤ b ∧ b ≤ l.length then some ((l.drop a).take (b - a)) else none

/-- `<DataOpIterator as Iterator>::next` (lines 111-135).
Result encoding: `some none` is Rust's `None` (iteration finished);
`some (some (op, it'))` is `Some(op)` together with the advanced iterator
state; the outer `none` is a panic (an out-of-bounds slice or descriptor
access), which never occurs on states reachable from `DBTransaction::iter`. -/
def DataOpIterator.next (it : DataOpIterator) (t : DBTransaction) :
    Option (Option (DataOp × DataOpIterator)) :=
  if it.index_pos = t.index.length then some none
  else
    match t.index[it.index_pos]? with
    | none => none
    | some (DBOpIndex.Insert col key_len value_len) =>
      match slice t.ops it.pos (it.pos + key_len),
            slice t.ops (it.pos + key_len) (it.pos + key_len + value_len) with
      | some k, some v =>
        some (some (DataOp.Insert col k v,
          { pos := it.pos + key_len + value_len, index_pos := it.index_pos + 1 }))
      | _, _ => none
    | some (DBOpIndex.Delete col key_len) =>
      match slice t.ops it.pos (it.pos + key_len) with
      | some k =>
        some (some (DataOp.Delete col k,
          { pos := it.pos + key_len, index_pos := it.index_pos + 1 }))
      | none => none

/-- Drive the iterator to exhaustion, collecting the yielded operations and the
final iterator state. `fuel` bounds the number of yields; it is instantiated
with the number of remaining descriptors, which the source's `next` never
exceeds. Returns `none` when a step panics or fuel runs out early. -/
def collect (t : DBTransaction) : Nat → DataOpIterator →
    Option (List DataOp × DataOpIterator)
  | 0, it =>
    match it.next t with
    | some none => some ([], it)
    | _ => none
  | f + 1, it =>
    match it.next t with
    | some none => some ([], it)
    | none => none
    | some (some (op, it')) => (collect t f it').map (fun p => (op :: p.1, p.2))

/-- Run a fresh iterator (`DBTransaction::iter`) to exhaustion. -/
def iterAll (t : DBTransaction) : Option (List DataOp × DataOpIterator) :=
  collect t t.index.length t.iter

/-- The sequence of operations yielded by iterating `t`. -/
def iterToList (t : DBTransaction) : Option (List DataOp) :=
  (iterAll t).map Prod.fst

/-! ### Call sequences

A `Call` records one invocation of the transaction-building API, so that
properties about "every sequence of `put`/`delete` calls" quantify over
`List Call`. -/

/-- One call to the transaction-building API. -/
inductive Call where
  | put (col : Nat) (key value : List Nat)
  | del (col : Nat) (key : List Nat)
deriving DecidableEq, Repr

/-- Perform one API call on a transaction. -/
def applyCall (t : DBTransaction) : Call → DBTransaction
  | Call.put c k v => t.put c k v
  | Call.del c k => t.delete c k

/-- Perform a sequence of API calls, left to right. -/
def applyCalls (t : DBTransaction) (cs : List Call) : DBTransaction :=
  cs.foldl applyCall t

/-- The bytes a call appends to the `ops` buffer. -/
def callBytes : Call → List Nat
  | Call.put _ k v => k ++ v
  | Call.del _ k => k

/-- The descriptor a call pushes onto `index`. -/
def callDesc : Call → DBOpIndex
  | Call.put c k v => DBOpIndex.Insert c k.length v.length
  | Call.del c k => DBOpIndex.Delete c k.length

/-- The operation view the iterator should yield for a call. -/
def callOp : Call → DataOp
  | Call.put c k v => DataOp.Insert c k v
  | Call.del c k => DataOp.Delete c k

/-- The key supplied by a call. -/
def keyOfCall : Call → List Nat
  | Call.put _ k _ => k
  | Call.del _ k => k

/-- The value supplied by a call (`[]` for a delete, which appends no value
bytes). -/
def valBytes : Call → List Nat
  | Call.put _ _ v => v
  | Call.del _ _ => []

/-- Concatenation of the bytes appended by a sequence of calls. -/
def joinBytes : List Call → List Nat
  | [] => []
  | c :: cs => callBytes c ++ joinBytes cs

/-- Number of `ops` bytes owned by one descriptor. -/
def descLen : DBOpIndex → Nat
  | DBOpIndex.Insert _ kl vl => kl + vl
  | DBOpIndex.Delete _ kl => kl

/-- Total number of `ops` bytes owned by a descriptor list. -/
def totalLen (idx : List DBOpIndex) : Nat :=
  (idx.map descLen).sum

/-- `offset(i)` of the spec: the byte offset at which descriptor `i`'s region
starts, the sum of the byte lengths of all earlier descriptors. -/
def offsetAt (idx : List DBOpIndex) (i : Nat) : Nat :=
  totalLen (idx.take i)

/-! ### Helper lemmas -/

/-- `put`/`delete` only append: `applyCalls` concatenates onto both buffers. -/
theorem applyCalls_eq (cs : List Call) : ∀ (t : DBTransaction),
    applyCalls t cs =
      { ops := t.ops ++ joinBytes cs, index := t.index ++ cs.map callDesc } := by
  induction cs with
  | nil =>
    intro t
    simp [applyCalls, joinBytes]
  | cons c cs ih =>
    intro t
    have step : applyCalls t (c :: cs) = applyCalls (applyCall t c) cs := rfl
    rw [step, ih]
    cases c with
    | put col k v =>
      simp [applyCall, DBTransaction.put, joinBytes, callBytes, callDesc]
    | del col k =>
      simp [applyCall, DBTransaction.delete, joinBytes, callBytes, callDesc]

/-- Slicing a list at a position whose suffix starts with `a` returns `a`. -/
theorem slice_of_drop_eq (l : List Nat) (pos : Nat) (a rest : List Nat)
    (hpos : pos ≤ l.length) (h : l.drop pos = a ++ rest) :
    slice l pos (pos + a.length) = some a := by
  have hlen : l.length - pos = a.length + rest.length := by
    have hc := congrArg List.length h
    simpa using hc
  unfold slice
  rw [if_pos]
  · rw [Nat.add_sub_cancel_left, h]
    exact congrArg some (List.take_left a rest)
  · exact ⟨Nat.le_add_right _ _, by omega⟩

/-- Advancing the byte cursor past a recognised chunk. -/
theorem drop_add_of_drop_eq (l : List Nat) (pos : Nat) (a rest : List Nat)
    (h : l.drop pos = a ++ rest) : l.drop (pos + a.length) = rest := by
  have h2 : (l.drop pos).drop a.length = rest := by rw [h, List.drop_left]
  rw [List.drop_drop] at h2
  simpa [Nat.add_comm] using h2

/-- Main iteration lemma: from a state whose remaining descriptors and
remaining bytes are exactly those of a call sequence `cs`, the iterator yields
`cs.map callOp` and finishes with its byte cursor at the end of `ops` and its
descriptor cursor at the end of `index`, never panicking. -/
theorem collect_calls (cs : List Call) : ∀ (t : DBTransaction) (pos ipos : Nat),
    ipos ≤ t.index.length → pos ≤ t.ops.length →
    t.index.drop ipos = cs.map callDesc →
    t.ops.drop pos = joinBytes cs →
    collect t cs.length { pos := pos, index_pos := ipos } =
      some (cs.map callOp,
        { pos := t.ops.length, index_pos := t.index.length }) := by
  induction cs with
  | nil =>
    intro t pos ipos hip hp hidx hops
    have hl1 : t.index.length - ipos = 0 := by
      have hc := congrArg List.length hidx; simpa using hc
    have hl2 : t.ops.length - pos = 0 := by
      have hc := congrArg List.length hops; simpa [joinBytes] using hc
    have hip2 : ipos = t.index.length := by omega
    have hp2 : pos = t.ops.length := by omega
    subst hip2; subst hp2
    simp [collect, DataOpIterator.next]
  | cons c cs ih =>
    intro t pos ipos hip hp hidx hops
    have hlidx : t.index.length - ipos = cs.length + 1 := by
      have hc := congrArg List.length hidx; simpa using hc
    have hne : ¬ (ipos = t.index.length) := by omega
    have hget : t.index[ipos]? = some (callDesc c) := by
      have h0 : (t.index.drop ipos)[0]? = some (callDesc c) := by
        rw [hidx]; simp
      rw [List.getElem?_drop] at h0
      simpa using h0
    have hidx' : t.index.drop (ipos + 1) = cs.map callDesc := by
      have h2 : (t.index.drop ipos).drop 1 = cs.map callDesc := by rw [hidx]; rfl
      rw [List.drop_drop] at h2
      simpa [Nat.add_comm] using h2
    cases c with
    | put col k v =>
      have hops' : t.ops.drop pos = k ++ (v ++ joinBytes cs) := by
        simpa [joinBytes, callBytes, List.append_assoc] using hops
      have hlops : t.ops.length - pos =
          k.length + (v.length + (joinBytes cs).length) := by
        have hc := congrArg List.length hops'; simpa using hc
      have hkey : slice t.ops pos (pos + k.length) = some k :=
        slice_of_drop_eq _ _ _ _ hp hops'
      have hdrop1 : t.ops.drop (pos + k.length) = v ++ joinBytes cs :=
        drop_add_of_drop_eq _ _ _ _ hops'
      have hp1 : pos + k.length ≤ t.ops.length := by omega
      have hval : slice t.ops (pos + k.length) (pos + k.length + v.length) =
          some v :=
        slice_of_drop_eq _ _ _ _ hp1 hdrop1
      have hdrop2 : t.ops.drop (pos + k.length + v.length) = joinBytes cs :=
        drop_add_of_drop_eq _ _ _ _ hdrop1
      have hp2 : pos + k.length + v.length ≤ t.ops.length := by omega
      have hnext : DataOpIterator.next { pos := pos, index_pos := ipos } t =
          some (some (DataOp.Insert col k v,
            { pos := pos + k.length + v.length, index_pos := ipos + 1 })) := by
        simp [DataOpIterator.next, hne, hget, callDesc, hkey, hval]
      have ihres := ih t (pos + k.length + v.length) (ipos + 1)
        (by omega) hp2 hidx' hdrop2
      simp only [List.length_cons, collect, hnext, ihres, Option.map_some]
      simp [callOp]
    | del col k =>
      have hops' : t.ops.drop pos = k ++ joinBytes cs := by
        simpa [joinBytes, callBytes] using hops
      have hlops : t.ops.length - pos = k.length + (joinBytes cs).length := by
        have hc := congrArg List.length hops'; simpa using hc
      have hkey : slice t.ops pos (pos + k.length) = some k :=
        slice_of_drop_eq _ _ _ _ hp hops'
      have hdrop1 : t.ops.drop (pos + k.length) = joinBytes cs :=
        drop_add_of_drop_eq _ _ _ _ hops'
      have hp1 : pos + k.length ≤ t.ops.length := by omega
      have hnext : DataOpIterator.next { pos := pos, index_pos := ipos } t =
          some (some (DataOp.Delete col k,
            { pos := pos + k.length, index_pos := ipos + 1 })) := by
        simp [DataOpIterator.next, hne, hget, callDesc, hkey]
      have ihres := ih t (pos + k.length) (ipos + 1) (by omega) hp1 hidx' hdrop1
      simp only [List.length_cons, collect, hnext, ihres, Option.map_some]
      simp [callOp]

/-- The transaction built by a call sequence, explicitly. -/
theorem build_ops_index (n : Nat) (cs : List Call) :
    applyCalls (DBTransaction.with_capacity n) cs =
      { ops := joinBytes cs, index := cs.map callDesc } := by
  simpa [DBTransaction.with_capacity] using
    applyCalls_eq cs (DBTransaction.with_capacity n)

/-- Running a fresh iterator over a built transaction yields one operation per
call with the supplied bytes, and ends with both cursors at the end. -/
theorem iterAll_applyCalls (n : Nat) (cs : List Call) :
    iterAll (applyCalls (DBTransaction.with_capacity n) cs) =
      some (cs.map callOp,
        { pos := (joinBytes cs).length, index_pos := cs.length }) := by
  rw [build_ops_index]
  have h := collect_calls cs
    { ops := joinBytes cs, index := cs.map callDesc } 0 0
    (by simp) (by simp) (by simp) (by simp)
  simpa [iterAll, DBTransaction.iter] using h

/-- Splitting a drop of a sum. -/
theorem drop_add (l : List Nat) (a b : Nat) :
    l.drop (a + b) = (l.drop a).drop b := by
  rw [List.drop_drop, Nat.add_comm]

/-- A descriptor owns exactly the bytes its call appended. -/
theorem descLen_callDesc (c : Call) :
    descLen (callDesc c) = (callBytes c).length := by
  cases c <;> simp [descLen, callDesc, callBytes]

/-- The bytes of a call are its key followed by its value bytes. -/
theorem callBytes_eq (c : Call) :
    callBytes c = keyOfCall c ++ valBytes c := by
  cases c <;> simp [callBytes, keyOfCall, valBytes]

/-- The descriptor list accounts for every byte of the packed buffer. -/
theorem totalLen_join (cs : List Call) :
    totalLen (cs.map callDesc) = (joinBytes cs).length := by
  induction cs with
  | nil => simp [totalLen, joinBytes]
  | cons c cs ih =>
    simp only [List.map_cons, totalLen, List.map, List.sum_cons, joinBytes,
      List.length_append, descLen_callDesc]
    simp only [totalLen] at ih
    omega

/-- `offsetAt` at zero. -/
theorem offsetAt_zero (idx : List DBOpIndex) : offsetAt idx 0 = 0 := by
  simp [offsetAt, totalLen]

/-- `offsetAt` on a cons at a successor index. -/
theorem offsetAt_cons_succ (d : DBOpIndex) (ds : List DBOpIndex) (i : Nat) :
    offsetAt (d :: ds) (i + 1) = descLen d + offsetAt ds i := by
  simp [offsetAt, totalLen]

/-- Descriptor `i`'s region: the packed buffer, dropped at `offset(i)`, starts
with exactly the bytes call `i` appended, and the region is in bounds. -/
theorem region (cs : List Call) : ∀ (i : Nat) (c : Call), cs[i]? = some c →
    offsetAt (cs.map callDesc) i + (callBytes c).length ≤
      (joinBytes cs).length ∧
    (joinBytes cs).drop (offsetAt (cs.map callDesc) i) =
      callBytes c ++ joinBytes (cs.drop (i + 1)) := by
  induction cs with
  | nil => intro i c h; simp at h
  | cons c0 cs ih =>
    intro i c h
    cases i with
    | zero =>
      simp only [List.getElem?_cons_zero, Option.some_inj] at h
      subst h
      refine ⟨?_, ?_⟩
      · simp [offsetAt_zero, joinBytes]
      · simp [offsetAt_zero, joinBytes]
    | succ i =>
      simp only [List.getElem?_cons_succ] at h
      obtain ⟨hb, hd⟩ := ih i c h
      constructor
      · simp only [List.map_cons, offsetAt_cons_succ, descLen_callDesc,
          joinBytes, List.length_append]
        omega
      · simp only [List.map_cons, offsetAt_cons_succ, descLen_callDesc,
          joinBytes, List.drop_succ_cons]
        rw [drop_add, List.drop_left, hd]

/-- `trait KeyValueDB` (lines 181-217), restricted to the members the default
`write` uses. A backend is its state type `σ` with an error type `ε`:
`write_buffered` (line 194) updates backend state and returns no error by
design; `flush` (line 203) returns the updated state and an `io::Result<()>`,
modelled as `Except ε Unit`. -/
structure KeyValueDB (σ ε : Type) where
  write_buffered : σ → DBTransaction → σ
  flush : σ → σ × Except ε Unit

/-- The trait's default `KeyValueDB::write` (lines 197-200):
`self.write_buffered(transaction); self.flush()`. -/
def KeyValueDB.write {σ ε : Type} (db : KeyValueDB σ ε) (s : σ)
    (t : DBTransaction) : σ × Except ε Unit :=
  db.flush (db.write_buffered s t)

/-- Number of `ops` bytes owned by the descriptor at position `i` (zero past
the end). -/
def descLenAt (idx : List DBOpIndex) (i : Nat) : Nat :=
  match idx[i]? with
  | some d => descLen d
  | none => 0

/-- Past the last descriptor, `offsetAt` is the total length. -/
theorem offsetAt_of_le (idx : List DBOpIndex) (i : Nat)
    (h : idx.length ≤ i) : offsetAt idx i = totalLen idx := by
  unfold offsetAt
  rw [List.take_of_length_le h]

/-- On a built transaction, the descriptor at `i` owns an in-bounds region. -/
theorem descLenAt_inbounds (cs : List Call) (i : Nat) :
    offsetAt (cs.map callDesc) i + descLenAt (cs.map callDesc) i ≤
      (joinBytes cs).length := by
  by_cases hlt : i < cs.length
  · cases hq : cs[i]? with
    | none =>
      rw [List.getElem?_eq_none_iff] at hq
      omega
    | some c =>
      obtain ⟨hb, _⟩ := region cs i c hq
      have hat : descLenAt (cs.map callDesc) i = descLen (callDesc c) := by
        simp [descLenAt, List.getElem?_map, hq]
      rw [hat, descLen_callDesc]
      exact hb
  · have hge : cs.length ≤ i := by omega
    have hat : descLenAt (cs.map callDesc) i = 0 := by
      have hnone : (cs.map callDesc)[i]? = none := by
        rw [List.getElem?_eq_none_iff]
        simpa using hge
      simp [descLenAt, hnone]
    rw [hat, offsetAt_of_le _ _ (by simpa using hge), totalLen_join]
    omega

/-- On a built transaction, `next` from any reachable cursor pair
`(offset(i), i)` with `i ≤` descriptor count does not hit the panic branch. -/
theorem next_at_reachable (cs : List Call) (i : Nat) (hi : i ≤ cs.length) :
    (DataOpIterator.next
      { pos := offsetAt (cs.map callDesc) i, index_pos := i }
      { ops := joinBytes cs, index := cs.map callDesc }).isSome := by
  by_cases hif : i = cs.length
  · subst hif
    simp [DataOpIterator.next]
  · have hlt : i < cs.length := by omega
    cases hq : cs[i]? with
    | none =>
      rw [List.getElem?_eq_none_iff] at hq
      omega
    | some c =>
      have hne : ¬ (i = (cs.map callDesc).length) := by simpa using hif
      have hget : (cs.map callDesc)[i]? = some (callDesc c) := by
        simp [List.getElem?_map, hq]
      obtain ⟨hb, hd⟩ := region cs i c hq
      have hoff_le : offsetAt (cs.map callDesc) i ≤ (joinBytes cs).length := by
        omega
      cases c with
      | put col k v =>
        have hd' : (joinBytes cs).drop (offsetAt (cs.map callDesc) i) =
            k ++ (v ++ joinBytes (cs.drop (i + 1))) := by
          simpa [callBytes, List.append_assoc] using hd
        have hkey := slice_of_drop_eq _ _ _ _ hoff_le hd'
        have hdrop1 := drop_add_of_drop_eq _ _ _ _ hd'
        have hlb : (callBytes (Call.put col k v)).length =
            k.length + v.length := by simp [callBytes]
        have hle1 : offsetAt (cs.map callDesc) i + k.length ≤
            (joinBytes cs).length := by omega
        have hval := slice_of_drop_eq _ _ _ _ hle1 hdrop1
        simp [DataOpIterator.next, hne, hif, hget, callDesc, hkey, hval]
      | del col k =>
        have hd' : (joinBytes cs).drop (offsetAt (cs.map callDesc) i) =
            k ++ joinBytes (cs.drop (i + 1)) := by
          simpa [callBytes] using hd
        have hkey := slice_of_drop_eq _ _ _ _ hoff_le hd'
        simp [DataOpIterator.next, hne, hif, hget, callDesc, hkey]

/-! ### Claim theorems -/

/-- C1. Round-trip: for every sequence of `put`/`delete` calls on a transaction
created by `new()` or `with_capacity(n)`, with arbitrary (including empty)
keys, values and column ids, iterating the resulting transaction yields exactly
one operation view per call, in call order; the i-th view is an `Insert` with
the call's column, key bytes and value bytes when the i-th call was a `put`,
and a `Delete` with the call's column and key bytes when it was a `delete`. -/
theorem roundtrip_put_delete_iter (n : Nat) (cs : List Call) :
    iterToList (applyCalls DBTransaction.new cs) = some (cs.map callOp) ∧
    iterToList (applyCalls (DBTransaction.with_capacity n) cs) =
      some (cs.map callOp) := by
  constructor
  · simp [iterToList, DBTransaction.new, iterAll_applyCalls]
  · simp [iterToList, iterAll_applyCalls]

/-- C2. Offset consistency: for a transaction built by any sequence of
`put`/`delete` calls (every intermediate transaction being itself such a build,
this holds after every call), descriptor `i`'s key occupies
`ops[offset(i) .. offset(i)+key_length[i]]` and its value the following
`value_length[i]` bytes (an empty region for deletes), the descriptors account
for the whole `ops` buffer, and the iterator terminates with its byte cursor
equal to the total length of `ops` — no leftover or overrun bytes. -/
theorem offset_consistency (n : Nat) (cs : List Call) (t : DBTransaction)
    (ht : t = applyCalls (DBTransaction.with_capacity n) cs)
    (i : Nat) (c : Call) (hc : cs[i]? = some c) :
    slice t.ops (offsetAt t.index i)
        (offsetAt t.index i + (keyOfCall c).length) = some (keyOfCall c) ∧
    slice t.ops (offsetAt t.index i + (keyOfCall c).length)
        (offsetAt t.index i + (keyOfCall c).length + (valBytes c).length) =
      some (valBytes c) ∧
    totalLen t.index = t.ops.length ∧
    iterAll t = some (cs.map callOp,
      { pos := t.ops.length, index_pos := t.index.length }) := by
  subst ht
  have hT := build_ops_index n cs
  obtain ⟨hb, hd⟩ := region cs i c hc
  have hcb := callBytes_eq c
  have hoff_le : offsetAt (cs.map callDesc) i ≤ (joinBytes cs).length := by
    omega
  have hd' : (joinBytes cs).drop (offsetAt (cs.map callDesc) i) =
      keyOfCall c ++ (valBytes c ++ joinBytes (cs.drop (i + 1))) := by
    rw [hd, hcb, List.append_assoc]
  have hkey := slice_of_drop_eq _ _ _ _ hoff_le hd'
  have hdrop1 := drop_add_of_drop_eq _ _ _ _ hd'
  have hlb : (callBytes c).length =
      (keyOfCall c).length + (valBytes c).length := by
    rw [hcb]; simp
  have hle1 : offsetAt (cs.map callDesc) i + (keyOfCall c).length ≤
      (joinBytes cs).length := by omega
  have hval := slice_of_drop_eq _ _ _ _ hle1 hdrop1
  refine ⟨?_, ?_, ?_, ?_⟩
  · rw [hT]
    exact hkey
  · rw [hT]
    exact hval
  · rw [hT]
    exact totalLen_join cs
  · rw [iterAll_applyCalls, hT]
    simp

/-- UTF-8 bytes of the string `"alpha"`. -/
def alphaBytes : List Nat := [97, 108, 112, 104, 97]

/-- UTF-8 bytes of the string `"beta"`. -/
def betaBytes : List Nat := [98, 101, 116, 97]

/-- UTF-8 bytes of the string `"1"`. -/
def oneBytes : List Nat := [49]

/-- UTF-8 bytes of the string `"2"`. -/
def twoBytes : List Nat := [50]

/-- The transaction of the spec's concrete scenario:
`t.put(0, "alpha", "1"); t.delete(0, "beta"); t.put(1, "alpha", "2")`. -/
def tScenario : DBTransaction :=
  ((DBTransaction.new.put 0 alphaBytes oneBytes).delete 0 betaBytes).put 1
    alphaBytes twoBytes

/-- C3. Concrete scenario: iterating the transaction built by
`put(0,"alpha","1"); delete(0,"beta"); put(1,"alpha","2")` yields exactly
`Insert(0,"alpha","1")`, `Delete(0,"beta")`, `Insert(1,"alpha","2")` and
nothing else, and the packed `ops` buffer is exactly 16 bytes long. -/
theorem concrete_scenario_alpha_beta :
    iterToList tScenario =
      some [DataOp.Insert 0 alphaBytes oneBytes,
            DataOp.Delete 0 betaBytes,
            DataOp.Insert 1 alphaBytes twoBytes] ∧
    tScenario.ops.length = 16 := by
  constructor
  · rfl
  · rfl

/-- C4. Append-only, no deduplication: `put` and `delete` leave the existing
`ops` bytes and `index` descriptors unchanged and append exactly one
descriptor; `index.len()` equals the number of calls made; and a second `put`
with the same column and key appends a second `Insert` descriptor while the
first remains in place. -/
theorem append_only_no_dedup (t : DBTransaction) (col : Nat)
    (k v v2 : List Nat) (n : Nat) (cs : List Call) :
    (t.put col k v).ops = t.ops ++ (k ++ v) ∧
    (t.put col k v).index =
      t.index ++ [DBOpIndex.Insert col k.length v.length] ∧
    (t.delete col k).ops = t.ops ++ k ∧
    (t.delete col k).index = t.index ++ [DBOpIndex.Delete col k.length] ∧
    (applyCalls (DBTransaction.with_capacity n) cs).index.length = cs.length ∧
    ((t.put col k v).put col k v2).index =
      t.index ++ [DBOpIndex.Insert col k.length v.length,
        DBOpIndex.Insert col k.length v2.length] := by
  refine ⟨by simp [DBTransaction.put], rfl, rfl, rfl, ?_, ?_⟩
  · rw [build_ops_index]
    simp
  · simp [DBTransaction.put]

/-- C5. Write composition: the `KeyValueDB` trait's default
`write(transaction)` is exactly `write_buffered(transaction)` followed
immediately by `flush()`: it returns `Ok` precisely when that flush returns
`Ok` and returns the flush's I/O error otherwise; any backend defining only
`write_buffered` and `flush` obtains this `write` for free (it is defined on
the trait, for every backend). -/
theorem write_eq_write_buffered_then_flush (σ ε : Type) (db : KeyValueDB σ ε)
    (s : σ) (t : DBTransaction) (e : ε) :
    db.write s t = db.flush (db.write_buffered s t) ∧
    ((db.write s t).2 = Except.ok () ↔
      (db.flush (db.write_buffered s t)).2 = Except.ok ()) ∧
    ((db.write s t).2 = Except.error e ↔
      (db.flush (db.write_buffered s t)).2 = Except.error e) :=
  ⟨rfl, Iff.rfl, Iff.rfl⟩

/-- C6. Restartability: two iterators independently created by `iter()` on the
same unmodified transaction yield identical sequences of operation views. -/
theorem iter_restartable (t : DBTransaction) (it1 it2 : DataOpIterator)
    (h1 : it1 = t.iter) (h2 : it2 = t.iter) :
    collect t t.index.length it1 = collect t t.index.length it2 := by
  subst h1
  subst h2
  rfl

/-- Witness for C6 at a concrete one-`put` transaction. -/
theorem iter_restartable_witness :
    collect (DBTransaction.put DBTransaction.new 0 [1] [2])
        (DBTransaction.put DBTransaction.new 0 [1] [2]).index.length
        (DBTransaction.iter (DBTransaction.put DBTransaction.new 0 [1] [2])) =
      collect (DBTransaction.put DBTransaction.new 0 [1] [2])
        (DBTransaction.put DBTransaction.new 0 [1] [2]).index.length
        (DBTransaction.iter (DBTransaction.put DBTransaction.new 0 [1] [2])) :=
  iter_restartable (DBTransaction.put DBTransaction.new 0 [1] [2]) _ _ rfl rfl

/-- C7. Empty construction and empty iteration: `with_capacity(n)` — and
`new()`, which is `with_capacity(256)` — constructs a transaction with empty
`ops` buffer and empty `index`, and on any transaction with zero operations
the very first `next()` call returns `None` and iteration yields the empty
sequence. -/
theorem empty_construction_empty_iteration (n : Nat) (t : DBTransaction)
    (h : t.index = []) :
    DBTransaction.with_capacity n = { ops := [], index := [] } ∧
    DBTransaction.new = DBTransaction.with_capacity 256 ∧
    DataOpIterator.next t.iter t = some none ∧
    iterToList t = some [] := by
  refine ⟨rfl, rfl, ?_, ?_⟩
  · simp [DataOpIterator.next, DBTransaction.iter, h]
  · simp [iterToList, iterAll, collect, DataOpIterator.next,
      DBTransaction.iter, h]

/-- Witness for C7: capacity 5, and a transaction with a non-empty byte buffer
but zero descriptors still yields the empty sequence at once. -/
theorem empty_construction_empty_iteration_witness :
    DBTransaction.with_capacity 5 = { ops := [], index := [] } ∧
    DBTransaction.new = DBTransaction.with_capacity 256 ∧
    DataOpIterator.next (DBTransaction.iter (DBTransaction.mk [9, 9] []))
      (DBTransaction.mk [9, 9] []) = some none ∧
    iterToList (DBTransaction.mk [9, 9] []) = some [] :=
  empty_construction_empty_iteration 5 (DBTransaction.mk [9, 9] []) rfl

/-- C8. The standard key-prefix length for prefix-oriented lookups,
`PREFIX_LEN`, equals exactly 12 bytes. -/
theorem prefix_len_is_twelve : PREFIX_LEN = 12 :=
  rfl

/-- C9. `put_vec(col, key, value)` is behaviorally identical to
`put(col, key, &value[..])`: both leave the transaction in the same state
(same `ops` bytes and same descriptor list). -/
theorem put_vec_eq_put (t : DBTransaction) (col : Nat) (k v : List Nat) :
    t.put_vec col k v = t.put col k v :=
  rfl

/-- C10. Iterator safety: on every transaction built through the public API,
each reachable `next()` state `(offset(i), i)` slices only in bounds — the
region of the descriptor at `i` never exceeds `ops.len()`, `next()` never hits
the panic branch, and the full iteration completes without panicking. -/
theorem iter_slicing_in_bounds (n : Nat) (cs : List Call) (t : DBTransaction)
    (ht : t = applyCalls (DBTransaction.with_capacity n) cs)
    (i : Nat) (hi : i ≤ t.index.length) :
    offsetAt t.index i + descLenAt t.index i ≤ t.ops.length ∧
    (DataOpIterator.next { pos := offsetAt t.index i, index_pos := i }
      t).isSome ∧
    (iterAll t).isSome := by
  subst ht
  rw [build_ops_index] at hi ⊢
  refine ⟨descLenAt_inbounds cs i, ?_, ?_⟩
  · exact next_at_reachable cs i (by simpa using hi)
  · rw [← build_ops_index n cs, iterAll_applyCalls]
    rfl

/-- Witness for C10 at a two-call transaction and descriptor position 1. -/
theorem iter_slicing_in_bounds_witness :
    offsetAt (applyCalls (DBTransaction.with_capacity 0)
        [Call.put 7 [1, 2] [3], Call.del 8 [4]]).index 1 +
      descLenAt (applyCalls (DBTransaction.with_capacity 0)
        [Call.put 7 [1, 2] [3], Call.del 8 [4]]).index 1 ≤
      (applyCalls (DBTransaction.with_capacity 0)
        [Call.put 7 [1, 2] [3], Call.del 8 [4]]).ops.length ∧
    (DataOpIterator.next
      { pos := offsetAt (applyCalls (DBTransaction.with_capacity 0)
          [Call.put 7 [1, 2] [3], Call.del 8 [4]]).index 1, index_pos := 1 }
      (applyCalls (DBTransaction.with_capacity 0)
        [Call.put 7 [1, 2] [3], Call.del 8 [4]])).isSome ∧
    (iterAll (applyCalls (DBTransaction.with_capacity 0)
      [Call.put 7 [1, 2] [3], Call.del 8 [4]])).isSome :=
  iter_slicing_in_bounds 0 [Call.put 7 [1, 2] [3], Call.del 8 [4]] _ rfl 1
    (by decide)

/-- Witness for C2 at the same two-call transaction, descriptor position 1. -/
theorem offset_consistency_witness :
    slice (applyCalls (DBTransaction.with_capacity 0)
        [Call.put 7 [1, 2] [3], Call.del 8 [4]]).ops
      (offsetAt (applyCalls (DBTransaction.with_capacity 0)
        [Call.put 7 [1, 2] [3], Call.del 8 [4]]).index 1)
      (offsetAt (applyCalls (DBTransaction.with_capacity 0)
        [Call.put 7 [1, 2] [3], Call.del 8 [4]]).index 1 +
        (keyOfCall (Call.del 8 [4])).length) =
      some (keyOfCall (Call.del 8 [4])) ∧
    slice (applyCalls (DBTransaction.with_capacity 0)
        [Call.put 7 [1, 2] [3], Call.del 8 [4]]).ops
      (offsetAt (applyCalls (DBTransaction.with_capacity 0)
        [Call.put 7 [1, 2] [3], Call.del 8 [4]]).index 1 +
        (keyOfCall (Call.del 8 [4])).length)
      (offsetAt (applyCalls (DBTransaction.with_capacity 0)
        [Call.put 7 [1, 2] [3], Call.del 8 [4]]).index 1 +
        (keyOfCall (Call.del 8 [4])).length +
        (valBytes (Call.del 8 [4])).length) =
      some (valBytes (Call.del 8 [4])) ∧
    totalLen (applyCalls (DBTransaction.with_capacity 0)
        [Call.put 7 [1, 2] [3], Call.del 8 [4]]).index =
      (applyCalls (DBTransaction.with_capacity 0)
        [Call.put 7 [1, 2] [3], Call.del 8 [4]]).ops.length ∧
    iterAll (applyCalls (DBTransaction.with_capacity 0)
        [Call.put 7 [1, 2] [3], Call.del 8 [4]]) =
      some ([Call.put 7 [1, 2] [3], Call.del 8 [4]].map callOp,
        { pos := (applyCalls (DBTransaction.with_capacity 0)
            [Call.put 7 [1, 2] [3], Call.del 8 [4]]).ops.length,
          index_pos := (applyCalls (DBTransaction.with_capacity 0)
            [Call.put 7 [1, 2] [3], Call.del 8 [4]]).index.length }) :=
  offset_consistency 0 [Call.put 7 [1, 2] [3], Call.del 8 [4]] _ rfl 1
    (Call.del 8 [4]) rfl

end Kvdb
